import Mathlib

/-!
# Array metadata subsystem: spec-level model and verification

The repository material under `src/` only contains the C++ API tests for the
array metadata subsystem (`test/src/unit-cppapi-metadata.cc`) together with an
unrelated dimension-label C header; the metadata implementation itself
(entry codec, fragment store, index, consolidator, access session) is not part
of the available sources.  Following the specification (`spec.md` §§3–4), we
model that missing implementation here and verify the spec's testable
properties against the model.  Byte sequences are modelled as `List Nat`
(each element a raw byte value), timestamps as `Nat` milliseconds, and
fallible operations return `Except Err α`.
-/

namespace TileDBMeta

/-- Modelled from the spec: the error taxonomy of §7 for the metadata
subsystem, whose implementation is missing from the sources. -/
inductive Err
  | invalidArgument
  | invalidState
  | outOfRange
  | authenticationError
  | corruptData
  | permissionDenied
deriving DecidableEq, Repr

/-- Modelled from the spec: the fixed scalar datatype enumeration of §3
(integers, floats, char) together with the catch-all `any` tag, which is
disallowed as an entry value type.  The implementation's datatype enum is not
in the sources. -/
inductive Datatype
  | any
  | char
  | int32
  | int64
  | uint64
  | float32
  | float64
deriving DecidableEq, Repr

/-- Modelled from the spec: byte width of one element of each scalar type. -/
def Datatype.size : Datatype → Nat
  | .any => 1
  | .char => 1
  | .int32 => 4
  | .int64 => 8
  | .uint64 => 8
  | .float32 => 4
  | .float64 => 8

/-- Modelled from the spec: a numeric wire tag for each datatype, used by the
entry codec (§4.1); the byte layout is an implementation choice. -/
def Datatype.toTag : Datatype → Nat
  | .any => 0
  | .char => 1
  | .int32 => 2
  | .int64 => 3
  | .uint64 => 4
  | .float32 => 5
  | .float64 => 6

/-- Modelled from the spec: inverse of `Datatype.toTag`. -/
def Datatype.ofTag : Nat → Option Datatype
  | 0 => some .any
  | 1 => some .char
  | 2 => some .int32
  | 3 => some .int64
  | 4 => some .uint64
  | 5 => some .float32
  | 6 => some .float64
  | _ => none

/-- Modelled from the spec: one logical metadata record (§3).  A live entry
carries a key (raw bytes), a value type, an element count and the raw value
bytes; a tombstone carries only the key.  The implementation's record type is
not in the sources. -/
inductive Entry
  | live (key : List Nat) (vtype : Datatype) (vcount : Nat) (value : List Nat)
  | tombstone (key : List Nat)
deriving DecidableEq, Repr

/-- The key of an entry (raw bytes). -/
def Entry.key : Entry → List Nat
  | .live k _ _ _ => k
  | .tombstone k => k

/-- Whether an entry is a deletion marker. -/
def Entry.isTombstone : Entry → Bool
  | .live _ _ _ _ => false
  | .tombstone _ => true

/-- Modelled from the spec: validity of a metadata entry (§3 invariants): the
key is a non-empty byte sequence; a live entry has `value_count ≥ 1`, a value
type other than `any`, and exactly `value_count` elements of that type stored
contiguously as raw bytes.  Length fields fit the codec's 32-bit fields. -/
def ValidEntry : Entry → Prop
  | .tombstone k => k ≠ [] ∧ k.length < 2 ^ 32 ∧ ∀ b ∈ k, b < 256
  | .live k t c v => k ≠ [] ∧ k.length < 2 ^ 32 ∧ (∀ b ∈ k, b < 256) ∧
      t ≠ .any ∧ 1 ≤ c ∧ c < 2 ^ 32 ∧ v.length = c * t.size ∧ ∀ b ∈ v, b < 256

instance : DecidablePred ValidEntry := by
  intro e
  cases e <;> · unfold ValidEntry; infer_instance

/-- Modelled from the spec: 32-bit little-endian length field written by the
codec (§4.1; the exact byte layout is an implementation choice). -/
def encodeU32 (n : Nat) : List Nat :=
  [n % 256, n / 256 % 256, n / 65536 % 256, n / 16777216 % 256]

/-- Modelled from the spec: read back a 32-bit little-endian length field,
failing when the buffer is truncated. -/
def readU32 : List Nat → Option (Nat × List Nat)
  | a :: b :: c :: d :: rest => some (a + 256 * b + 65536 * c + 16777216 * d, rest)
  | _ => none

/-- Modelled from the spec: read a fixed number of raw bytes from the front of
a buffer, failing when the buffer is truncated. -/
def readBytes (n : Nat) (l : List Nat) : Option (List Nat × List Nat) :=
  if n ≤ l.length then some (l.take n, l.drop n) else none

/-- Modelled from the spec: `encode(entry) -> bytes` of §4.1.  Serializes key
length, key bytes, deleted-flag, and — if not deleted — value type tag, value
count and raw value bytes, in that fixed field order.  Fails with
`InvalidArgument` if a live entry has `value_count == 0` or
`value_type == ANY`. -/
def encode : Entry → Except Err (List Nat)
  | .tombstone k => .ok (encodeU32 k.length ++ (k ++ [1]))
  | .live k t c v =>
      if t = .any ∨ c = 0 then .error .invalidArgument
      else .ok (encodeU32 k.length ++ (k ++ (0 :: t.toTag :: (encodeU32 c ++ v))))

/-- Modelled from the spec: `decode(bytes) -> entry` of §4.1, the inverse of
`encode`; fails with `CorruptData` if the buffer is truncated or a length
field is inconsistent with the remaining buffer size. -/
def decode (buf : List Nat) : Except Err Entry :=
  match readU32 buf with
  | none => .error .corruptData
  | some (klen, r1) =>
    match readBytes klen r1 with
    | none => .error .corruptData
    | some (key, r2) =>
      match r2 with
      | [] => .error .corruptData
      | dflag :: r3 =>
        if dflag = 1 then
          if r3 = [] then .ok (.tombstone key) else .error .corruptData
        else if dflag = 0 then
          match r3 with
          | [] => .error .corruptData
          | ttag :: r4 =>
            match Datatype.ofTag ttag with
            | none => .error .corruptData
            | some t =>
              match readU32 r4 with
              | none => .error .corruptData
              | some (cnt, r5) =>
                match readBytes (cnt * t.size) r5 with
                | none => .error .corruptData
                | some (val, r6) =>
                  if r6 = [] then .ok (.live key t cnt val)
                  else .error .corruptData
        else .error .corruptData

theorem readU32_encodeU32 (n : Nat) (h : n < 2 ^ 32) (rest : List Nat) :
    readU32 (encodeU32 n ++ rest) = some (n, rest) := by
  simp only [encodeU32, List.cons_append, List.nil_append, readU32]
  congr 1
  congr 1
  omega

theorem readBytes_exact (xs rest : List Nat) :
    readBytes xs.length (xs ++ rest) = some (xs, rest) := by
  simp [readBytes, List.take_left, List.drop_left]

theorem ofTag_toTag (t : Datatype) : Datatype.ofTag t.toTag = some t := by
  cases t <;> rfl

/-- C2: for every valid metadata entry `e` (a live entry with
`value_count ≥ 1` and `value_type ≠ ANY`, or a tombstone carrying only a
key), decoding the encoding of `e` yields `e` exactly; keys are arbitrary
non-empty raw byte sequences, so multi-byte characters round-trip byte for
byte. -/
theorem decode_encode_roundtrip (e : Entry) (h : ValidEntry e) :
    ∃ buf, encode e = .ok buf ∧ decode buf = .ok e := by
  cases e with
  | tombstone k =>
    obtain ⟨-, hklen, -⟩ := h
    refine ⟨_, rfl, ?_⟩
    rw [decode, readU32_encodeU32 _ hklen]
    have hk1 : readBytes k.length (k ++ [1]) = some (k, [1]) := readBytes_exact k [1]
    simp [hk1]
  | live k t c v =>
    obtain ⟨-, hklen, -, htany, hc1, hc32, hvlen, -⟩ := h
    have henc : encode (.live k t c v) =
        .ok (encodeU32 k.length ++ (k ++ (0 :: t.toTag :: (encodeU32 c ++ v)))) := by
      rw [encode, if_neg]
      push_neg
      exact ⟨htany, by omega⟩
    refine ⟨_, henc, ?_⟩
    have hval : readBytes (c * t.size) v = some (v, []) := by
      have := readBytes_exact v []
      rwa [hvlen, List.append_nil] at this
    rw [decode, readU32_encodeU32 _ hklen]
    simp [readBytes_exact, ofTag_toTag, readU32_encodeU32 _ hc32, hval]

/-- Concrete instantiation of `decode_encode_roundtrip`: the 3-byte UTF-8 key
`"≥"` (`0xE2 0x89 0xA5`) with a single little-endian int32 value `5`. -/
theorem decode_encode_roundtrip_witness :
    ValidEntry (.live [226, 137, 165] .int32 1 [5, 0, 0, 0]) ∧
    ∃ buf, encode (.live [226, 137, 165] .int32 1 [5, 0, 0, 0]) = .ok buf ∧
      decode buf = .ok (.live [226, 137, 165] .int32 1 [5, 0, 0, 0]) :=
  ⟨by decide, decode_encode_roundtrip _ (by decide)⟩

/-! ## Metadata Index (§4.3) -/

/-- The live value recorded for a key: value type, element count, raw value
bytes. -/
structure LiveVal where
  vtype : Datatype
  vcount : Nat
  value : List Nat
deriving DecidableEq, Repr

/-- Modelled from the spec: the in-memory Metadata Index (§3), an ordered
mapping from key to latest value; list order is replay insertion-rank order,
used for ordinal access.  The implementation's index is not in the sources. -/
abbrev Index := List (List Nat × LiveVal)

/-- Modelled from the spec: one replay step of `Index.build` (§4.3).  A
tombstone removes the key from the live map (no-op when absent); a live entry
upserts, preserving the prior insertion rank when the key is present and
appending at the end (a fresh rank) otherwise. -/
def applyEntry (idx : Index) : Entry → Index
  | .tombstone k => idx.filter (fun p => p.1 ≠ k)
  | .live k t c v =>
      if idx.any (fun p => p.1 = k) then
        idx.map (fun p => if p.1 = k then (k, ⟨t, c, v⟩) else p)
      else idx ++ [(k, ⟨t, c, v⟩)]

/-- Modelled from the spec: replay a sequence of entries, oldest first,
through the index. -/
def replay (idx : Index) (es : List Entry) : Index :=
  es.foldl applyEntry idx

/-- Key lookup in the index: `absent` (`none`) is a normal, non-error
outcome. -/
def ilookup (idx : Index) (k : List Nat) : Option LiveVal :=
  (idx.find? (fun p => p.1 = k)).map (·.2)

/-- The most recent entry in `es` whose key is `k`, if any. -/
def lastTouch (k : List Nat) (es : List Entry) : Option Entry :=
  es.reverse.find? (fun e => e.key = k)

theorem ilookup_nil (k : List Nat) : ilookup [] k = none := rfl

theorem ilookup_cons (p : List Nat × LiveVal) (rest : Index) (k : List Nat) :
    ilookup (p :: rest) k = if p.1 = k then some p.2 else ilookup rest k := by
  by_cases h : p.1 = k <;> simp [ilookup, List.find?_cons, h]

theorem ilookup_map_upd_of_mem (idx : Index) (k : List Nat) (w : LiveVal)
    (hany : idx.any (fun p => p.1 = k)) :
    ilookup (idx.map (fun p => if p.1 = k then (k, w) else p)) k = some w := by
  induction idx with
  | nil => simp at hany
  | cons p rest ih =>
    by_cases hpk : p.1 = k
    · rw [List.map_cons, if_pos hpk, ilookup_cons, if_pos rfl]
    · rw [List.map_cons, if_neg hpk, ilookup_cons, if_neg hpk]
      simp only [List.any_cons, Bool.or_eq_true, decide_eq_true_eq] at hany
      exact ih (hany.resolve_left hpk)

theorem ilookup_map_upd_of_ne (idx : Index) (k k' : List Nat) (w : LiveVal)
    (hne : k' ≠ k) :
    ilookup (idx.map (fun p => if p.1 = k' then (k', w) else p)) k
      = ilookup idx k := by
  induction idx with
  | nil => rfl
  | cons p rest ih =>
    by_cases hpk : p.1 = k'
    · have hp2 : p.1 ≠ k := by rw [hpk]; exact hne
      rw [List.map_cons, if_pos hpk, ilookup_cons, ilookup_cons,
        if_neg (show (k', w).1 ≠ k from hne), if_neg hp2, ih]
    · by_cases hp2 : p.1 = k
      · rw [List.map_cons, if_neg hpk, ilookup_cons, ilookup_cons,
          if_pos hp2, if_pos hp2]
      · rw [List.map_cons, if_neg hpk, ilookup_cons, ilookup_cons,
          if_neg hp2, if_neg hp2, ih]

theorem ilookup_append_single (idx : Index) (k : List Nat) (w : LiveVal)
    (hany : ¬ idx.any (fun p => p.1 = k)) :
    ilookup (idx ++ [(k, w)]) k = some w := by
  induction idx with
  | nil => rw [List.nil_append, ilookup_cons, if_pos rfl]
  | cons p rest ih =>
    simp only [List.any_cons, Bool.or_eq_true, decide_eq_true_eq, not_or]
      at hany
    rw [List.cons_append, ilookup_cons, if_neg hany.1]
    exact ih hany.2

theorem ilookup_append_single_ne (idx : Index) (k k' : List Nat) (w : LiveVal)
    (hne : k' ≠ k) :
    ilookup (idx ++ [(k', w)]) k = ilookup idx k := by
  induction idx with
  | nil => rw [List.nil_append, ilookup_cons, if_neg (show (k', w).1 ≠ k from hne)]
  | cons p rest ih =>
    by_cases hp : p.1 = k
    · rw [List.cons_append, ilookup_cons, ilookup_cons, if_pos hp, if_pos hp]
    · rw [List.cons_append, ilookup_cons, ilookup_cons, if_neg hp, if_neg hp, ih]

theorem ilookup_filter_ne (idx : Index) (k : List Nat) :
    ilookup (idx.filter (fun p => p.1 ≠ k)) k = none := by
  induction idx with
  | nil => rfl
  | cons p rest ih =>
    by_cases h : p.1 = k
    · simpa [List.filter_cons, h] using ih
    · rw [List.filter_cons, if_pos (by simpa using h), ilookup_cons, if_neg h]
      exact ih

theorem ilookup_filter_other (idx : Index) (k k' : List Nat) (hne : k' ≠ k) :
    ilookup (idx.filter (fun p => p.1 ≠ k')) k = ilookup idx k := by
  induction idx with
  | nil => rfl
  | cons p rest ih =>
    by_cases hp : p.1 = k'
    · have hp2 : p.1 ≠ k := by rw [hp]; exact hne
      rw [List.filter_cons, if_neg (by simpa using hp), ih, ilookup_cons,
        if_neg hp2]
    · rw [List.filter_cons, if_pos (by simpa using hp), ilookup_cons,
        ilookup_cons, ih]

theorem ilookup_applyEntry_live_same (idx : Index) (k : List Nat)
    (t : Datatype) (c : Nat) (v : List Nat) :
    ilookup (applyEntry idx (.live k t c v)) k = some ⟨t, c, v⟩ := by
  rw [applyEntry]
  split
  · rename_i hany
    exact ilookup_map_upd_of_mem idx k _ hany
  · rename_i hany
    exact ilookup_append_single idx k _ hany

theorem ilookup_applyEntry_live_ne (idx : Index) (k k' : List Nat)
    (t : Datatype) (c : Nat) (v : List Nat) (hne : k' ≠ k) :
    ilookup (applyEntry idx (.live k' t c v)) k = ilookup idx k := by
  rw [applyEntry]
  split
  · exact ilookup_map_upd_of_ne idx k k' _ hne
  · exact ilookup_append_single_ne idx k k' _ hne

theorem ilookup_applyEntry_tomb_same (idx : Index) (k : List Nat) :
    ilookup (applyEntry idx (.tombstone k)) k = none :=
  ilookup_filter_ne idx k

theorem ilookup_applyEntry_tomb_ne (idx : Index) (k k' : List Nat)
    (hne : k' ≠ k) :
    ilookup (applyEntry idx (.tombstone k')) k = ilookup idx k :=
  ilookup_filter_other idx k k' hne

/-! ## Replay lemmas -/

/-- The keys of an index, in insertion-rank order. -/
def keysOf (idx : Index) : List (List Nat) := idx.map Prod.fst

/-- Modelled from the spec: the consolidator's re-serialization of the live
index entries (§4.4): every surviving key becomes one live entry, tombstones
are dropped. -/
def indexToEntries (idx : Index) : List Entry :=
  idx.map (fun p => .live p.1 p.2.vtype p.2.vcount p.2.value)

theorem replay_cons (idx : Index) (e : Entry) (es : List Entry) :
    replay idx (e :: es) = replay (applyEntry idx e) es := rfl

theorem replay_append_split (idx : Index) (es1 es2 : List Entry) :
    replay idx (es1 ++ es2) = replay (replay idx es1) es2 := by
  simp [replay, List.foldl_append]

theorem lastTouch_append_single (k : List Nat) (l : List Entry) (e : Entry) :
    lastTouch k (l ++ [e]) = if e.key = k then some e else lastTouch k l := by
  by_cases h : e.key = k <;>
    simp [lastTouch, List.reverse_append, List.find?_cons, h]

/-- The value a key holds after replay is decided by the most recent entry
touching it; untouched keys keep their pre-replay binding. -/
theorem ilookup_replay (idx : Index) (es : List Entry) (k : List Nat) :
    ilookup (replay idx es) k =
      match lastTouch k es with
      | some (.live _ t c v) => some ⟨t, c, v⟩
      | some (.tombstone _) => none
      | none => ilookup idx k := by
  induction es using List.reverseRecOn with
  | nil => rfl
  | append_singleton l e ih =>
    rw [replay_append_split, lastTouch_append_single]
    cases e with
    | live k' t c v =>
      by_cases hk : k' = k
      · subst hk
        simp only [Entry.key]
        rw [if_true]
        have := ilookup_applyEntry_live_same (replay idx l) k' t c v
        simpa [replay] using this
      · rw [if_neg (by simpa [Entry.key] using hk)]
        have step := ilookup_applyEntry_live_ne (replay idx l) k k' t c v hk
        calc ilookup (replay (replay idx l) [.live k' t c v]) k
            = ilookup (applyEntry (replay idx l) (.live k' t c v)) k := rfl
          _ = ilookup (replay idx l) k := step
          _ = _ := ih
    | tombstone k' =>
      by_cases hk : k' = k
      · subst hk
        simp only [Entry.key]
        rw [if_true]
        exact ilookup_applyEntry_tomb_same (replay idx l) k'
      · rw [if_neg (by simpa [Entry.key] using hk)]
        have step := ilookup_applyEntry_tomb_ne (replay idx l) k k' hk
        calc ilookup (replay (replay idx l) [.tombstone k']) k
            = ilookup (applyEntry (replay idx l) (.tombstone k')) k := rfl
          _ = ilookup (replay idx l) k := step
          _ = _ := ih

theorem keysOf_cons (p : List Nat × LiveVal) (rest : Index) :
    keysOf (p :: rest) = p.1 :: keysOf rest := rfl

theorem keysOf_map_upd (idx : Index) (k : List Nat) (w : LiveVal) :
    keysOf (idx.map (fun p => if p.1 = k then (k, w) else p)) = keysOf idx := by
  induction idx with
  | nil => rfl
  | cons p rest ih =>
    by_cases hp : p.1 = k
    · rw [List.map_cons, if_pos hp, keysOf_cons, keysOf_cons, ih, hp]
    · rw [List.map_cons, if_neg hp, keysOf_cons, keysOf_cons, ih]

/-- Replay preserves distinctness of the index's keys. -/
theorem keysOf_applyEntry_nodup (idx : Index) (e : Entry)
    (h : (keysOf idx).Nodup) : (keysOf (applyEntry idx e)).Nodup := by
  cases e with
  | tombstone k =>
    rw [applyEntry]
    exact ((List.filter_sublist idx).map Prod.fst).nodup h
  | live k t c v =>
    rw [applyEntry]
    split
    · rw [keysOf_map_upd]
      exact h
    · rename_i hany
      have hk : k ∉ keysOf idx := by
        intro hmem
        rcases List.mem_map.mp hmem with ⟨p, hp, hpk⟩
        exact hany (List.any_eq_true.mpr ⟨p, hp, by simp [hpk]⟩)
      have : keysOf (idx ++ [(k, ⟨t, c, v⟩)]) = keysOf idx ++ [k] := by
        simp [keysOf]
      rw [this]
      exact List.Nodup.append h (List.nodup_singleton k)
        (List.disjoint_singleton.mpr hk)

theorem nodup_keysOf_replay (idx : Index) (es : List Entry)
    (h : (keysOf idx).Nodup) : (keysOf (replay idx es)).Nodup := by
  induction es generalizing idx with
  | nil => exact h
  | cons e rest ih =>
    rw [replay_cons]
    exact ih _ (keysOf_applyEntry_nodup idx e h)

theorem map_upd_no_key (idx : Index) (k : List Nat) (w : LiveVal)
    (hk : ∀ q ∈ idx, q.1 ≠ k) :
    idx.map (fun p => if p.1 = k then (k, w) else p) = idx := by
  induction idx with
  | nil => rfl
  | cons p rest ih =>
    rw [List.map_cons, if_neg (hk p (by simp)),
      ih (fun q hq => hk q (by simp [hq]))]

theorem map_upd_self (idx : Index) (k : List Nat) (w : LiveVal)
    (hnd : (keysOf idx).Nodup) (hmem : (k, w) ∈ idx) :
    idx.map (fun p => if p.1 = k then (k, w) else p) = idx := by
  induction idx with
  | nil => cases hmem
  | cons p rest ih =>
    rw [keysOf_cons, List.nodup_cons] at hnd
    rcases List.mem_cons.mp hmem with heq | hmem'
    · subst heq
      have hc : ((k, w) : List Nat × LiveVal).1 = k := rfl
      rw [List.map_cons, if_pos hc]
      have hrest : ∀ q ∈ rest, q.1 ≠ k := by
        intro q hq hqk
        have hx : q.1 ∈ keysOf rest := List.mem_map_of_mem Prod.fst hq
        rw [hqk] at hx
        exact hnd.1 hx
      rw [map_upd_no_key rest k w hrest]
    · have hp : p.1 ≠ k := by
        intro hpk
        have hk : k ∈ keysOf rest := List.mem_map_of_mem Prod.fst hmem'
        rw [← hpk] at hk
        exact hnd.1 hk
      rw [List.map_cons, if_neg hp, ih hnd.2 hmem']

theorem applyEntry_live_mem (idx : Index) (q : List Nat × LiveVal)
    (hnd : (keysOf idx).Nodup) (hq : q ∈ idx) :
    applyEntry idx (.live q.1 q.2.vtype q.2.vcount q.2.value) = idx := by
  rw [applyEntry]
  have hany : idx.any (fun p => p.1 = q.1) := by
    exact List.any_eq_true.mpr ⟨q, hq, by simp⟩
  rw [if_pos hany]
  have hpair : ((q.1, ⟨q.2.vtype, q.2.vcount, q.2.value⟩) : List Nat × LiveVal)
      = q := by
    obtain ⟨qk, ⟨a, b, c⟩⟩ := q
    rfl
  calc idx.map (fun p => if p.1 = q.1
          then (q.1, ⟨q.2.vtype, q.2.vcount, q.2.value⟩) else p)
      = idx.map (fun p => if p.1 = q.1 then (q.1, q.2) else p) := by
        rw [show ((q.1, ⟨q.2.vtype, q.2.vcount, q.2.value⟩) : List Nat × LiveVal)
          = (q.1, q.2) from by rw [hpair]]
    _ = idx := map_upd_self idx q.1 q.2 hnd (by simpa using hq)

/-- Replaying the consolidator's re-serialization of any sub-collection of a
duplicate-free index back over that index leaves it unchanged. -/
theorem replay_entries_of_subset (idx : Index) (l : Index)
    (hnd : (keysOf idx).Nodup) (hsub : ∀ p ∈ l, p ∈ idx) :
    replay idx (indexToEntries l) = idx := by
  induction l with
  | nil => rfl
  | cons q rest ih =>
    rw [indexToEntries, List.map_cons, replay_cons,
      applyEntry_live_mem idx q hnd (hsub q (by simp))]
    exact ih (fun p hp => hsub p (by simp [hp]))

/-- Replaying the live entries of a duplicate-free index into an empty index
reproduces it: consolidation is a fixed point of replay. -/
theorem replay_self (idx : Index) (hnd : (keysOf idx).Nodup) :
    replay idx (indexToEntries idx) = idx :=
  replay_entries_of_subset idx idx hnd (fun _ hp => hp)

/-- Inserting entries with fresh, pairwise-distinct keys appends them in
order: ordinal positions follow replay order. -/
theorem replay_fresh (l : Index) (idx0 : Index)
    (hdisj : ∀ p ∈ l, p.1 ∉ keysOf idx0)
    (hnd : (keysOf l).Nodup) :
    replay idx0 (indexToEntries l) = idx0 ++ l := by
  induction l generalizing idx0 with
  | nil => simp [indexToEntries, replay]
  | cons q rest ih =>
    rw [keysOf_cons, List.nodup_cons] at hnd
    rw [indexToEntries, List.map_cons, replay_cons]
    have hnotany : ¬ (idx0.any fun p => decide (p.1 = q.1)) = true := by
      intro hany
      rcases List.any_eq_true.mp hany with ⟨p, hp, hpk⟩
      exact hdisj q (by simp)
        ((by simpa using hpk : p.1 = q.1) ▸ List.mem_map_of_mem Prod.fst hp)
    have happly : applyEntry idx0 (.live q.1 q.2.vtype q.2.vcount q.2.value)
        = idx0 ++ [q] := by
      rw [applyEntry, if_neg hnotany]
    rw [happly]
    have hrec := ih (idx0 ++ [q])
      (by
        intro p hp
        have h1 : p.1 ∉ keysOf idx0 := hdisj p (by simp [hp])
        have h2 : p.1 ≠ q.1 := by
          intro hpq
          exact hnd.1 (hpq ▸ List.mem_map_of_mem Prod.fst hp)
        simp only [keysOf, List.map_append, List.map_cons, List.map_nil,
          List.mem_append, List.mem_singleton, not_or]
        exact ⟨by simpa [keysOf] using h1, h2⟩)
      hnd.2
    have hsame : indexToEntries rest
        = List.map (fun p => Entry.live p.1 p.2.vtype p.2.vcount p.2.value)
            rest := rfl
    rw [hsame] at hrec
    rw [hrec, List.append_assoc, List.singleton_append]

theorem replay_tombs (idx : Index) (ds : List (List Nat)) :
    replay idx (ds.map .tombstone) = idx.filter (fun p => p.1 ∉ ds) := by
  induction ds generalizing idx with
  | nil =>
    rw [List.map_nil]
    refine Eq.symm (List.filter_eq_self.mpr ?_)
    intro p _
    simp
  | cons d rest ih =>
    rw [List.map_cons, replay_cons,
      show applyEntry idx (.tombstone d) = idx.filter (fun p => p.1 ≠ d)
        from rfl,
      ih, List.filter_filter]
    apply List.filter_congr
    intro p _
    by_cases h1 : p.1 = d <;> by_cases h2 : p.1 ∈ rest <;> simp [h1, h2]

theorem keysOf_filter_key (idx : Index) (d : List Nat) :
    keysOf (idx.filter (fun p => p.1 ≠ d)) = (keysOf idx).filter (fun x => x ≠ d) := by
  induction idx with
  | nil => rfl
  | cons p rest ih =>
    by_cases h : p.1 = d
    · rw [List.filter_cons, if_neg (by simpa using h), ih, keysOf_cons,
        List.filter_cons, if_neg (by simpa using h)]
    · rw [List.filter_cons, if_pos (by simpa using h), keysOf_cons, ih,
        keysOf_cons, List.filter_cons, if_pos (by simpa using h)]

theorem length_filter_remove_one (idx : Index) (d : List Nat)
    (hnd : (keysOf idx).Nodup) (hmem : d ∈ keysOf idx) :
    (idx.filter (fun p => p.1 ≠ d)).length = idx.length - 1 := by
  induction idx with
  | nil => cases hmem
  | cons p rest ih =>
    rw [keysOf_cons, List.nodup_cons] at hnd
    rw [keysOf_cons, List.mem_cons] at hmem
    rcases hmem with heq | hmem'
    · rw [List.filter_cons, if_neg (by simpa using heq.symm)]
      have hall : rest.filter (fun p => p.1 ≠ d) = rest := by
        refine List.filter_eq_self.mpr ?_
        intro q hq
        exact decide_eq_true
          (fun hqd => hnd.1 (heq ▸ hqd ▸ List.mem_map_of_mem Prod.fst hq))
      rw [hall]
      simp
    · have hp : p.1 ≠ d := by
        intro hpd
        exact hnd.1 (hpd ▸ hmem')
      rw [List.filter_cons, if_pos (by simpa using hp), List.length_cons,
        ih hnd.2 hmem', List.length_cons]
      have : rest.length ≥ 1 := by
        cases rest with
        | nil => cases hmem'
        | cons a b => simp
      omega

theorem length_filter_remove_many (ds : List (List Nat)) (idx : Index)
    (hnd : (keysOf idx).Nodup) (hds : ds.Nodup)
    (hsub : ∀ d ∈ ds, d ∈ keysOf idx) :
    (idx.filter (fun p => p.1 ∉ ds)).length = idx.length - ds.length := by
  induction ds generalizing idx with
  | nil =>
    rw [show idx.filter (fun p => p.1 ∉ ([] : List (List Nat))) = idx from
      List.filter_eq_self.mpr (fun p _ => by simp)]
    simp
  | cons d rest ih =>
    rw [List.nodup_cons] at hds
    have hstep : idx.filter (fun p => p.1 ∉ d :: rest)
        = (idx.filter (fun p => p.1 ≠ d)).filter (fun p => p.1 ∉ rest) := by
      rw [List.filter_filter]
      apply List.filter_congr
      intro p _
      by_cases h1 : p.1 = d <;> by_cases h2 : p.1 ∈ rest <;> simp [h1, h2]
    rw [hstep]
    have hnd' : (keysOf (idx.filter (fun p => p.1 ≠ d))).Nodup := by
      rw [keysOf_filter_key]
      exact hnd.filter _
    have hsub' : ∀ r ∈ rest, r ∈ keysOf (idx.filter (fun p => p.1 ≠ d)) := by
      intro r hr
      rw [keysOf_filter_key, List.mem_filter]
      exact ⟨hsub r (by simp [hr]),
        decide_eq_true (fun hrd => hds.1 (hrd ▸ hr))⟩
    rw [ih _ hnd' hds.2 hsub',
      length_filter_remove_one idx d hnd (hsub d (by simp)), List.length_cons]
    omega

/-! ## Fragment store and access session (§§4.2, 4.5) -/

/-- Modelled from the spec: a session's mode, write-only-append or
read-only-snapshot (§3). -/
inductive Mode
  | read
  | write
deriving DecidableEq, Repr

/-- Modelled from the spec: an immutable metadata fragment (§3) — an ordered
batch of entries written together, tagged with its creation timestamp in
milliseconds.  The fragment store implementation is not in the sources. -/
structure Fragment where
  timestamp : Nat
  entries : List Entry
deriving DecidableEq, Repr

/-- Modelled from the spec: the durable state of one array — the optional
symmetric encryption key it was created with and its metadata fragments in
ascending creation-timestamp order (the store appends with strictly
increasing timestamps). -/
structure ArrayState where
  arrayKey : Option Nat
  fragments : List Fragment
deriving DecidableEq, Repr

/-- The largest fragment timestamp (0 for no fragments). -/
def maxTs (st : ArrayState) : Nat :=
  (st.fragments.map Fragment.timestamp).foldr max 0

/-- Modelled from the spec: `Index.build` (§4.3) — replay all entries of the
given fragments, oldest fragment first, through an empty index. -/
def buildIndex (frags : List Fragment) : Index :=
  replay [] (frags.map Fragment.entries).flatten

/-- Modelled from the spec: `list_fragments` (§4.2) restricted to creation
timestamp ≤ `t`, in ascending order. -/
def fragmentsUpTo (st : ArrayState) (t : Nat) : List Fragment :=
  st.fragments.filter (fun f => f.timestamp ≤ t)

/-- The index state visible to a reader whose effective timestamp is `t`. -/
def indexAt (st : ArrayState) (t : Nat) : Index :=
  buildIndex (fragmentsUpTo st t)

/-- Modelled from the spec: an access session (§3): a mode, the effective
timestamp, and the buffered entries of a pending write batch. -/
structure Session where
  mode : Mode
  timestamp : Nat
  buffer : List Entry
deriving DecidableEq, Repr

/-- Modelled from the spec: `open(array_ref, mode, key_material?, timestamp?)`
(§4.5): fails with `InvalidState` when a timestamp is supplied in write mode;
fails with `AuthenticationError` when the supplied key material does not
match the array's key (a key supplied for an unencrypted array is rejected,
not ignored); otherwise yields a session whose effective timestamp is the
supplied one, or the current time `now` when unspecified. -/
def openArray (st : ArrayState) (m : Mode) (key : Option Nat)
    (ts : Option Nat) (now : Nat) : Except Err Session :=
  if key ≠ st.arrayKey then .error .authenticationError
  else
    match m, ts with
    | .write, some _ => .error .invalidState
    | .write, none => .ok ⟨.write, now, []⟩
    | .read, t => .ok ⟨.read, t.getD now, []⟩

/-- Modelled from the spec: `put(key, type, count, value)` (§4.5): fails with
`InvalidState` if the session is not open for write; fails with
`InvalidArgument` if `type == ANY`, `count == 0` or `value` is null
(modelled as `none`); otherwise buffers the live entry. -/
def putMeta (s : Session) (key : List Nat) (t : Datatype) (c : Nat)
    (v : Option (List Nat)) : Except Err Session :=
  if s.mode ≠ .write then .error .invalidState
  else if t = .any ∨ c = 0 ∨ v = none then .error .invalidArgument
  else .ok ⟨s.mode, s.timestamp, s.buffer ++ [.live key t c (v.getD [])]⟩

/-- Modelled from the spec: `delete(key)` (§4.5): fails with `InvalidState`
if the session is not open for write; buffers a tombstone; no error if the
key never existed. -/
def deleteMeta (s : Session) (key : List Nat) : Except Err Session :=
  if s.mode ≠ .write then .error .invalidState
  else .ok ⟨s.mode, s.timestamp, s.buffer ++ [.tombstone key]⟩

/-- Modelled from the spec: `close()` (§4.5) together with `write_fragment`
(§4.2): a write session with a non-empty buffer persists one new fragment
whose creation timestamp is strictly greater than every existing fragment
timestamp; otherwise the array is unchanged. -/
def closeSession (st : ArrayState) (s : Session) : ArrayState :=
  if s.mode = .write ∧ s.buffer ≠ [] then
    ⟨st.arrayKey, st.fragments ++ [⟨maxTs st + 1, s.buffer⟩]⟩
  else st

/-- Modelled from the spec: `get(key)` (§4.5): fails with `InvalidState` if
not open for read; otherwise looks the key up in the index built from the
fragments with creation timestamp ≤ the session's effective timestamp, with
`absent` (`none`) as a normal, non-error outcome. -/
def getMeta (st : ArrayState) (s : Session) (key : List Nat) :
    Except Err (Option LiveVal) :=
  if s.mode ≠ .read then .error .invalidState
  else .ok (ilookup (indexAt st s.timestamp) key)

/-- Modelled from the spec: `count()` / `metadata_num` (§§4.3, 4.5): the
number of live keys in the session's index. -/
def metadataNum (st : ArrayState) (s : Session) : Except Err Nat :=
  if s.mode ≠ .read then .error .invalidState
  else .ok (indexAt st s.timestamp).length

/-- Modelled from the spec: `get_by_ordinal(i)` / `get_metadata_from_index`
(§§4.3, 4.5): fails with `InvalidState` if not open for read and with
`OutOfRange` if `i ≥ count()`; otherwise returns the key and entry at
replay-order position `i`. -/
def getFromIndex (st : ArrayState) (s : Session) (i : Nat) :
    Except Err (List Nat × LiveVal) :=
  if s.mode ≠ .read then .error .invalidState
  else
    let idx := indexAt st s.timestamp
    if h : i < idx.length then .ok (idx.get ⟨i, h⟩) else .error .outOfRange

/-- Modelled from the spec: `reopen()` (§4.5): closes (flushing any pending
writes) and reopens in the same mode with a fresh index build at the current
time `now`, so fragments written since the last index build become
visible. -/
def reopenSession (st : ArrayState) (s : Session) (now : Nat) :
    ArrayState × Session :=
  (closeSession st s, ⟨s.mode, now, []⟩)

/-- Modelled from the spec: `consolidate(array_ref, key_material,
max_timestamp)` (§4.4): fails with `AuthenticationError` when the key
material does not match the array's key; otherwise lists the fragments with
timestamp ≤ `max_timestamp`, builds the index, and writes one new fragment
holding exactly the live entries of that index in rank order (tombstones
dropped).  Consolidation augments — it does not delete history. -/
def consolidateMeta (st : ArrayState) (key : Option Nat) (t : Nat) :
    Except Err ArrayState :=
  if key ≠ st.arrayKey then .error .authenticationError
  else
    .ok ⟨st.arrayKey,
      st.fragments ++ [⟨t, indexToEntries (buildIndex (fragmentsUpTo st t))⟩]⟩

/-- Modelled from the spec: the buffered operations a caller issues inside
one write session (§4.5). -/
inductive MetaOp
  | putOp (key : List Nat) (vtype : Datatype) (vcount : Nat) (value : List Nat)
  | delOp (key : List Nat)
deriving DecidableEq, Repr

/-- The key an operation touches. -/
def MetaOp.key : MetaOp → List Nat
  | .putOp k _ _ _ => k
  | .delOp k => k

/-- The buffered entry an operation produces. -/
def MetaOp.entry : MetaOp → Entry
  | .putOp k t c v => .live k t c v
  | .delOp k => .tombstone k

/-- A put with a legal type and count (a delete is always legal). -/
def ValidOp : MetaOp → Prop
  | .putOp _ t c _ => t ≠ .any ∧ c ≠ 0
  | .delOp _ => True

instance : DecidablePred ValidOp := by
  intro op
  cases op <;> · unfold ValidOp; infer_instance

/-- Run a sequence of puts and deletes through a session. -/
def runOps (s : Session) : List MetaOp → Except Err Session
  | [] => .ok s
  | .putOp k t c v :: rest =>
      match putMeta s k t c (some v) with
      | .error e => .error e
      | .ok s' => runOps s' rest
  | .delOp k :: rest =>
      match deleteMeta s k with
      | .error e => .error e
      | .ok s' => runOps s' rest

/-! ## Basic store lemmas -/

theorem buildIndex_nodup (frags : List Fragment) :
    (keysOf (buildIndex frags)).Nodup := by
  apply nodup_keysOf_replay
  simp [keysOf]

theorem indexAt_nodup (st : ArrayState) (t : Nat) :
    (keysOf (indexAt st t)).Nodup :=
  buildIndex_nodup _

theorem buildIndex_append (fr1 fr2 : List Fragment) :
    buildIndex (fr1 ++ fr2)
      = replay (buildIndex fr1) (fr2.map Fragment.entries).flatten := by
  simp [buildIndex, List.map_append, List.flatten_append, replay_append_split]

theorem fragmentsUpTo_append_late (st : ArrayState) (f : Fragment) (t : Nat)
    (h : t < f.timestamp) :
    fragmentsUpTo ⟨st.arrayKey, st.fragments ++ [f]⟩ t
      = fragmentsUpTo st t := by
  show (st.fragments ++ [f]).filter (fun g => g.timestamp ≤ t)
      = st.fragments.filter (fun g => g.timestamp ≤ t)
  rw [List.filter_append]
  have hf : [f].filter (fun g => decide (g.timestamp ≤ t)) = [] := by
    rw [List.filter_cons, if_neg]
    · rfl
    · simp only [decide_eq_true_eq]
      omega
  rw [hf, List.append_nil]

theorem fragmentsUpTo_all (st : ArrayState) (t : Nat)
    (h : ∀ f ∈ st.fragments, f.timestamp ≤ t) :
    fragmentsUpTo st t = st.fragments :=
  List.filter_eq_self.mpr (fun f hf => decide_eq_true (h f hf))

/-! ## Claim theorems -/

/-- C4: a read session opened at timestamp `t` never observes a write/delete
fragment committed later: after the later fragment exists, `get` still
returns the value live at `t` and `count()` still equals the number of keys
live at `t`. -/
theorem time_travel_read (st : ArrayState) (f : Fragment) (s : Session)
    (k : List Nat) (hm : s.mode = .read) (hlate : s.timestamp < f.timestamp) :
    getMeta ⟨st.arrayKey, st.fragments ++ [f]⟩ s k = getMeta st s k ∧
    metadataNum ⟨st.arrayKey, st.fragments ++ [f]⟩ s = metadataNum st s ∧
    getMeta st s k = .ok (ilookup (indexAt st s.timestamp) k) ∧
    metadataNum st s = .ok (indexAt st s.timestamp).length := by
  have hidx : indexAt ⟨st.arrayKey, st.fragments ++ [f]⟩ s.timestamp
      = indexAt st s.timestamp := by
    rw [indexAt, fragmentsUpTo_append_late st f s.timestamp hlate]
    rfl
  have hmode : ¬ s.mode ≠ .read := by simp [hm]
  refine ⟨?_, ?_, ?_, ?_⟩
  · rw [getMeta, getMeta, if_neg hmode, if_neg hmode, hidx]
  · rw [metadataNum, metadataNum, if_neg hmode, if_neg hmode, hidx]
  · rw [getMeta, if_neg hmode]
  · rw [metadataNum, if_neg hmode]

/-- Instantiation of `time_travel_read`: one live key written at time 1,
tombstoned by a fragment at time 2, read back at timestamp 1. -/
theorem time_travel_read_witness :
    (Session.mk .read 1 []).mode = .read ∧
    getMeta ⟨none, [⟨1, [.live [97] .int32 1 [5, 0, 0, 0]]⟩, ⟨2, [.tombstone [97]]⟩]⟩
        ⟨.read, 1, []⟩ [97]
      = getMeta ⟨none, [⟨1, [.live [97] .int32 1 [5, 0, 0, 0]]⟩]⟩ ⟨.read, 1, []⟩ [97] ∧
    metadataNum ⟨none, [⟨1, [.live [97] .int32 1 [5, 0, 0, 0]]⟩, ⟨2, [.tombstone [97]]⟩]⟩
        ⟨.read, 1, []⟩
      = metadataNum ⟨none, [⟨1, [.live [97] .int32 1 [5, 0, 0, 0]]⟩]⟩ ⟨.read, 1, []⟩ := by
  have h := time_travel_read ⟨none, [⟨1, [.live [97] .int32 1 [5, 0, 0, 0]]⟩]⟩
    ⟨2, [.tombstone [97]]⟩ ⟨.read, 1, []⟩ [97] rfl (by decide)
  exact ⟨rfl, h.1, h.2.1⟩

/-- C5: `put` fails with `InvalidState` when the session is not open for
write; in a write session it fails with `InvalidArgument` when the type is
`ANY`, the count is 0 or the value is null, and otherwise succeeds, buffering
the entry. -/
theorem putMeta_error_spec (s : Session) (key : List Nat) (t : Datatype)
    (c : Nat) (v : Option (List Nat)) :
    (s.mode ≠ .write → putMeta s key t c v = .error .invalidState) ∧
    (s.mode = .write → (t = .any ∨ c = 0 ∨ v = none) →
      putMeta s key t c v = .error .invalidArgument) ∧
    (s.mode = .write → t ≠ .any → c ≠ 0 → ∀ val, v = some val →
      putMeta s key t c v =
        .ok ⟨.write, s.timestamp, s.buffer ++ [.live key t c val]⟩) := by
  refine ⟨?_, ?_, ?_⟩
  · intro hm
    rw [putMeta, if_pos hm]
  · intro hm harg
    rw [putMeta, if_neg (by simp [hm]), if_pos harg]
  · intro hm ht hc val hv
    rw [putMeta, if_neg (by simp [hm]), if_neg (by simp [ht, hc, hv]), hv, hm]
    rfl

/-- Instantiation of `putMeta_error_spec` covering each branch: read-mode
rejection, `ANY` type, zero count, null value, and a successful put. -/
theorem putMeta_error_spec_witness :
    putMeta ⟨.read, 0, []⟩ [107] .int32 1 (some [5, 0, 0, 0])
      = .error .invalidState ∧
    putMeta ⟨.write, 0, []⟩ [107] .any 1 (some [5, 0, 0, 0])
      = .error .invalidArgument ∧
    putMeta ⟨.write, 0, []⟩ [107] .int32 0 (some [5, 0, 0, 0])
      = .error .invalidArgument ∧
    putMeta ⟨.write, 0, []⟩ [107] .int32 1 none = .error .invalidArgument ∧
    putMeta ⟨.write, 0, []⟩ [107] .int32 1 (some [5, 0, 0, 0])
      = .ok ⟨.write, 0, [.live [107] .int32 1 [5, 0, 0, 0]]⟩ :=
  ⟨(putMeta_error_spec ⟨.read, 0, []⟩ [107] .int32 1 (some [5, 0, 0, 0])).1
      (by decide),
   (putMeta_error_spec ⟨.write, 0, []⟩ [107] .any 1 (some [5, 0, 0, 0])).2.1
      rfl (Or.inl rfl),
   (putMeta_error_spec ⟨.write, 0, []⟩ [107] .int32 0 (some [5, 0, 0, 0])).2.1
      rfl (Or.inr (Or.inl rfl)),
   (putMeta_error_spec ⟨.write, 0, []⟩ [107] .int32 1 none).2.1
      rfl (Or.inr (Or.inr rfl)),
   (putMeta_error_spec ⟨.write, 0, []⟩ [107] .int32 1 (some [5, 0, 0, 0])).2.2
      rfl (by decide) (by decide) [5, 0, 0, 0] rfl⟩

/-- C9: in a read session, `get_by_ordinal(i)` fails with `OutOfRange`
exactly when `i ≥ count()`, and for `i < count()` it returns the key-entry
pair at replay-order position `i`. -/
theorem getFromIndex_spec (st : ArrayState) (s : Session) (i : Nat)
    (hm : s.mode = .read) :
    metadataNum st s = .ok (indexAt st s.timestamp).length ∧
    (getFromIndex st s i = .error .outOfRange
      ↔ (indexAt st s.timestamp).length ≤ i) ∧
    ∀ h : i < (indexAt st s.timestamp).length,
      getFromIndex st s i = .ok ((indexAt st s.timestamp).get ⟨i, h⟩) := by
  have hmode : ¬ s.mode ≠ .read := by simp [hm]
  refine ⟨by rw [metadataNum, if_neg hmode], ?_, ?_⟩
  · rw [getFromIndex, if_neg hmode]
    by_cases h : i < (indexAt st s.timestamp).length
    · rw [dif_pos h]
      simp only [reduceCtorEq, false_iff, not_le]
      exact h
    · rw [dif_neg h]
      simp only [true_iff]
      omega
  · intro h
    rw [getFromIndex, if_neg hmode, dif_pos h]

/-- Instantiation of `getFromIndex_spec`: an index with one live key, queried
at ordinals 0 and 10. -/
theorem getFromIndex_spec_witness :
    metadataNum ⟨none, [⟨1, [.live [97] .int32 1 [5, 0, 0, 0]]⟩]⟩ ⟨.read, 1, []⟩
      = .ok 1 ∧
    getFromIndex ⟨none, [⟨1, [.live [97] .int32 1 [5, 0, 0, 0]]⟩]⟩ ⟨.read, 1, []⟩ 10
      = .error .outOfRange ∧
    getFromIndex ⟨none, [⟨1, [.live [97] .int32 1 [5, 0, 0, 0]]⟩]⟩ ⟨.read, 1, []⟩ 0
      = .ok ([97], ⟨.int32, 1, [5, 0, 0, 0]⟩) := by
  have h0 := getFromIndex_spec ⟨none, [⟨1, [.live [97] .int32 1 [5, 0, 0, 0]]⟩]⟩
    ⟨.read, 1, []⟩ 0 rfl
  have h10 := getFromIndex_spec ⟨none, [⟨1, [.live [97] .int32 1 [5, 0, 0, 0]]⟩]⟩
    ⟨.read, 1, []⟩ 10 rfl
  refine ⟨?_, ?_, ?_⟩
  · have := h0.1
    rwa [show (indexAt ⟨none, [⟨1, [.live [97] .int32 1 [5, 0, 0, 0]]⟩]⟩ 1).length
      = 1 from rfl] at this
  · exact h10.2.1.mpr (by decide)
  · have := h0.2.2 (by decide)
    exact this.trans (by rfl)

/-- C10: opening an array that was created without encryption while supplying
encryption key material is rejected with an error, not ignored. -/
theorem open_unencrypted_with_key_rejected (st : ArrayState) (ck : Nat)
    (m : Mode) (ts : Option Nat) (now : Nat) (hk : st.arrayKey = none) :
    openArray st m (some ck) ts now = .error .authenticationError := by
  unfold openArray
  rw [if_pos (by simp [hk])]

/-- Instantiation of `open_unencrypted_with_key_rejected`: read-mode open of
an unencrypted empty array with a key. -/
theorem open_unencrypted_with_key_rejected_witness :
    openArray ⟨none, []⟩ .read (some 7) none 0 = .error .authenticationError :=
  open_unencrypted_with_key_rejected ⟨none, []⟩ 7 .read none 0 rfl

/-- Shared consolidation lemma: when every fragment of the array lies at or
before `t`, appending the consolidated fragment (the live index entries
re-serialized at timestamp `t`) leaves the index visible at `t`
unchanged. -/
theorem indexAt_after_consolidation (st : ArrayState) (t : Nat)
    (hts : ∀ f ∈ st.fragments, f.timestamp ≤ t) :
    indexAt ⟨st.arrayKey, st.fragments ++ [⟨t, indexToEntries (indexAt st t)⟩]⟩ t
      = indexAt st t := by
  have hfu : fragmentsUpTo st t = st.fragments := fragmentsUpTo_all st t hts
  have hfu2 : fragmentsUpTo
      ⟨st.arrayKey, st.fragments ++ [⟨t, indexToEntries (indexAt st t)⟩]⟩ t
      = st.fragments ++ [⟨t, indexToEntries (indexAt st t)⟩] := by
    apply fragmentsUpTo_all
    intro f hf
    rcases List.mem_append.mp hf with hf1 | hf2
    · exact hts f hf1
    · rw [List.mem_singleton.mp hf2]
  rw [indexAt, hfu2, buildIndex_append]
  have hb : buildIndex st.fragments = indexAt st t := by rw [indexAt, hfu]
  rw [hb]
  show replay (indexAt st t) (indexToEntries (indexAt st t) ++ []) = _
  rw [List.append_nil]
  exact replay_self _ (indexAt_nodup st t)

/-- C1: with the matching key, consolidating all fragments written up to
`max_timestamp` succeeds, and reading afterwards yields the same live state
as replaying the original fragments: the index, hence `count()` and every
`get` (deleted keys stay absent, surviving keys keep their last value), is
unchanged, and the single consolidated fragment contains only live entries
and no deletion markers. -/
theorem consolidation_refines_replay (st : ArrayState) (t : Nat)
    (hts : ∀ f ∈ st.fragments, f.timestamp ≤ t) :
    ∃ st', consolidateMeta st st.arrayKey t = .ok st' ∧
      st'.fragments = st.fragments ++ [⟨t, indexToEntries (indexAt st t)⟩] ∧
      indexAt st' t = indexAt st t ∧
      (indexAt st' t).length = (indexAt st t).length ∧
      (∀ k, ilookup (indexAt st' t) k = ilookup (indexAt st t) k) ∧
      ∀ e ∈ (⟨t, indexToEntries (indexAt st t)⟩ : Fragment).entries,
        e.isTombstone = false := by
  have hdef : buildIndex (fragmentsUpTo st t) = indexAt st t := rfl
  refine ⟨⟨st.arrayKey,
      st.fragments ++ [⟨t, indexToEntries (buildIndex (fragmentsUpTo st t))⟩]⟩,
    by rw [consolidateMeta, if_neg (by simp)], rfl, ?_, ?_, ?_, ?_⟩
  · exact indexAt_after_consolidation st t hts
  · rw [hdef, indexAt_after_consolidation st t hts]
  · intro k
    rw [hdef, indexAt_after_consolidation st t hts]
  · intro e he
    rcases List.mem_map.mp he with ⟨p, -, hpe⟩
    rw [← hpe]
    rfl

/-- Instantiation of `consolidation_refines_replay`: two writes and one
delete consolidated at time 3. -/
theorem consolidation_refines_replay_witness :
    (∀ f ∈ (ArrayState.mk none
        [⟨1, [.live [97] .int32 1 [5, 0, 0, 0], .live [98] .char 1 [120]]⟩,
         ⟨2, [.tombstone [97]]⟩]).fragments, f.timestamp ≤ 3) ∧
    ∃ st', consolidateMeta ⟨none,
        [⟨1, [.live [97] .int32 1 [5, 0, 0, 0], .live [98] .char 1 [120]]⟩,
         ⟨2, [.tombstone [97]]⟩]⟩ none 3 = .ok st' ∧
      st'.fragments = (ArrayState.mk none
          [⟨1, [.live [97] .int32 1 [5, 0, 0, 0], .live [98] .char 1 [120]]⟩,
           ⟨2, [.tombstone [97]]⟩]).fragments
        ++ [⟨3, indexToEntries (indexAt ⟨none,
          [⟨1, [.live [97] .int32 1 [5, 0, 0, 0], .live [98] .char 1 [120]]⟩,
           ⟨2, [.tombstone [97]]⟩]⟩ 3)⟩] ∧
      indexAt st' 3 = indexAt ⟨none,
          [⟨1, [.live [97] .int32 1 [5, 0, 0, 0], .live [98] .char 1 [120]]⟩,
           ⟨2, [.tombstone [97]]⟩]⟩ 3 ∧
      (indexAt st' 3).length = (indexAt ⟨none,
          [⟨1, [.live [97] .int32 1 [5, 0, 0, 0], .live [98] .char 1 [120]]⟩,
           ⟨2, [.tombstone [97]]⟩]⟩ 3).length ∧
      (∀ k, ilookup (indexAt st' 3) k = ilookup (indexAt ⟨none,
          [⟨1, [.live [97] .int32 1 [5, 0, 0, 0], .live [98] .char 1 [120]]⟩,
           ⟨2, [.tombstone [97]]⟩]⟩ 3) k) ∧
      ∀ e ∈ (⟨3, indexToEntries (indexAt ⟨none,
          [⟨1, [.live [97] .int32 1 [5, 0, 0, 0], .live [98] .char 1 [120]]⟩,
           ⟨2, [.tombstone [97]]⟩]⟩ 3)⟩ : Fragment).entries,
        e.isTombstone = false :=
  ⟨by decide, consolidation_refines_replay ⟨none,
      [⟨1, [.live [97] .int32 1 [5, 0, 0, 0], .live [98] .char 1 [120]]⟩,
       ⟨2, [.tombstone [97]]⟩]⟩ 3 (by decide)⟩

/-- C8: consolidating the metadata of an encrypted array with missing or
wrong key material fails with `AuthenticationError` (so the stored fragments
are untouched), while consolidating with the correct key succeeds and
subsequent reads with that key return the pre-consolidation `count()`. -/
theorem consolidate_encryption_spec (st : ArrayState) (ck : Nat)
    (provided : Option Nat) (t : Nat) (hk : st.arrayKey = some ck)
    (hts : ∀ f ∈ st.fragments, f.timestamp ≤ t) :
    (provided ≠ some ck →
      consolidateMeta st provided t = .error .authenticationError) ∧
    ∃ st', consolidateMeta st (some ck) t = .ok st' ∧
      ∀ s : Session, s.mode = .read → s.timestamp = t →
        metadataNum st' s = metadataNum st s := by
  constructor
  · intro hpk
    rw [consolidateMeta, if_pos (by rw [hk]; exact hpk)]
  · refine ⟨⟨st.arrayKey,
      st.fragments ++ [⟨t, indexToEntries (buildIndex (fragmentsUpTo st t))⟩]⟩,
      by rw [consolidateMeta, if_neg (by simp [hk])], ?_⟩
    intro s hm hts2
    have hmode : ¬ s.mode ≠ .read := by simp [hm]
    rw [metadataNum, metadataNum, if_neg hmode, if_neg hmode, hts2]
    have := indexAt_after_consolidation st t hts
    rw [show buildIndex (fragmentsUpTo st t) = indexAt st t from rfl, this]

/-- Instantiation of `consolidate_encryption_spec`: an AES-keyed array
(key modelled as 42), consolidated without a key, with the wrong key and
with the right key. -/
theorem consolidate_encryption_spec_witness :
    consolidateMeta ⟨some 42, [⟨1, [.live [97] .int32 1 [5, 0, 0, 0]]⟩]⟩ none 2
      = .error .authenticationError ∧
    consolidateMeta ⟨some 42, [⟨1, [.live [97] .int32 1 [5, 0, 0, 0]]⟩]⟩ (some 7) 2
      = .error .authenticationError ∧
    ∃ st', consolidateMeta ⟨some 42, [⟨1, [.live [97] .int32 1 [5, 0, 0, 0]]⟩]⟩
        (some 42) 2 = .ok st' ∧
      ∀ s : Session, s.mode = .read → s.timestamp = 2 →
        metadataNum st' s
          = metadataNum ⟨some 42, [⟨1, [.live [97] .int32 1 [5, 0, 0, 0]]⟩]⟩ s :=
  ⟨(consolidate_encryption_spec ⟨some 42, [⟨1, [.live [97] .int32 1 [5, 0, 0, 0]]⟩]⟩
      42 none 2 rfl (by decide)).1 (by decide),
   (consolidate_encryption_spec ⟨some 42, [⟨1, [.live [97] .int32 1 [5, 0, 0, 0]]⟩]⟩
      42 (some 7) 2 rfl (by decide)).1 (by decide),
   (consolidate_encryption_spec ⟨some 42, [⟨1, [.live [97] .int32 1 [5, 0, 0, 0]]⟩]⟩
      42 (some 7) 2 rfl (by decide)).2⟩

/-- C6: after one write batch of `N` distinct keys and a second batch
deleting `M` of them (`M ≤ N`, every deleted key previously written), a
subsequent read session observes `count() == N - M`. -/
theorem count_after_deletes (kvs : Index) (ds : List (List Nat))
    (t1 t2 : Nat) (s : Session)
    (hm : s.mode = .read) (h1 : t1 ≤ s.timestamp) (h2 : t2 ≤ s.timestamp)
    (hnd : (keysOf kvs).Nodup) (hds : ds.Nodup)
    (hsub : ∀ d ∈ ds, d ∈ keysOf kvs) :
    metadataNum ⟨none, [⟨t1, indexToEntries kvs⟩, ⟨t2, ds.map .tombstone⟩]⟩ s
      = .ok (kvs.length - ds.length) := by
  have hmode : ¬ s.mode ≠ .read := by simp [hm]
  rw [metadataNum, if_neg hmode]
  have hfu : fragmentsUpTo
      ⟨none, [⟨t1, indexToEntries kvs⟩, ⟨t2, ds.map .tombstone⟩]⟩ s.timestamp
      = [⟨t1, indexToEntries kvs⟩, ⟨t2, ds.map .tombstone⟩] := by
    apply fragmentsUpTo_all
    intro f hf
    rcases List.mem_cons.mp hf with rfl | hf2
    · exact h1
    · rw [List.mem_singleton.mp hf2]
      exact h2
  rw [indexAt, hfu]
  have hbuild : buildIndex [⟨t1, indexToEntries kvs⟩, ⟨t2, ds.map .tombstone⟩]
      = replay (replay [] (indexToEntries kvs)) (ds.map .tombstone) := by
    show replay [] (indexToEntries kvs ++ (ds.map .tombstone ++ [])) = _
    rw [List.append_nil, replay_append_split]
  have hlives : replay [] (indexToEntries kvs) = kvs := by
    have := replay_fresh kvs [] (by intro p _; simp [keysOf]) hnd
    simpa using this
  rw [hbuild, hlives, replay_tombs kvs ds,
    length_filter_remove_many ds kvs hnd hds hsub]

/-- Instantiation of `count_after_deletes`: N = 2 keys written, M = 1
deleted, count is 1. -/
theorem count_after_deletes_witness :
    metadataNum ⟨none,
        [⟨1, indexToEntries [([97], ⟨.int32, 1, [5, 0, 0, 0]⟩),
                             ([98], ⟨.char, 1, [120]⟩)]⟩,
         ⟨2, [[97]].map Entry.tombstone⟩]⟩ ⟨.read, 2, []⟩
      = .ok 1 :=
  count_after_deletes
    [([97], ⟨.int32, 1, [5, 0, 0, 0]⟩), ([98], ⟨.char, 1, [120]⟩)]
    [[97]] 1 2 ⟨.read, 2, []⟩ rfl (by decide) (by decide)
    (by decide) (by decide) (by decide)

/-- C7: `reopen()` on a read session keeps the array state, keeps the mode,
moves the effective timestamp to the current time, and rebuilds the index so
that `get` and `count()` afterwards reflect every fragment with timestamp up
to the new effective time — in particular any fragment written after the
session's previous effective timestamp, invisible before, is in the new
replay set. -/
theorem reopen_makes_new_fragments_visible (st : ArrayState) (s : Session)
    (now : Nat) (k : List Nat) (hm : s.mode = .read) :
    (reopenSession st s now).1 = st ∧
    (reopenSession st s now).2.mode = s.mode ∧
    (reopenSession st s now).2.timestamp = now ∧
    getMeta (reopenSession st s now).1 (reopenSession st s now).2 k
      = .ok (ilookup (indexAt st now) k) ∧
    metadataNum (reopenSession st s now).1 (reopenSession st s now).2
      = .ok (indexAt st now).length ∧
    ∀ f ∈ st.fragments, s.timestamp < f.timestamp → f.timestamp ≤ now →
      f ∉ fragmentsUpTo st s.timestamp ∧ f ∈ fragmentsUpTo st now := by
  have hclose : closeSession st s = st := by
    rw [closeSession, if_neg]
    intro hand
    rw [hm] at hand
    exact absurd hand.1 (by decide)
  have hfst : (reopenSession st s now).1 = st := hclose
  have hsnd : (reopenSession st s now).2 = ⟨s.mode, now, []⟩ := rfl
  have hmode : ¬ (Session.mk s.mode now []).mode ≠ .read := by simp [hm]
  refine ⟨hfst, rfl, rfl, ?_, ?_, ?_⟩
  · rw [hfst, hsnd, getMeta, if_neg hmode]
  · rw [hfst, hsnd, metadataNum, if_neg hmode]
  · intro f hf hlate hvis
    constructor
    · intro hmem
      have := (List.mem_filter.mp hmem).2
      simp only [decide_eq_true_eq] at this
      omega
    · exact List.mem_filter.mpr ⟨hf, decide_eq_true hvis⟩

/-- Instantiation of `reopen_makes_new_fragments_visible`: a session reading
at time 1 reopened at time 2, where a tombstone fragment at time 2 exists. -/
theorem reopen_makes_new_fragments_visible_witness :
    (reopenSession ⟨none, [⟨1, [.live [97] .int32 1 [5, 0, 0, 0]]⟩,
        ⟨2, [.tombstone [97]]⟩]⟩ ⟨.read, 1, []⟩ 2).1
      = ⟨none, [⟨1, [.live [97] .int32 1 [5, 0, 0, 0]]⟩, ⟨2, [.tombstone [97]]⟩]⟩ ∧
    (reopenSession ⟨none, [⟨1, [.live [97] .int32 1 [5, 0, 0, 0]]⟩,
        ⟨2, [.tombstone [97]]⟩]⟩ ⟨.read, 1, []⟩ 2).2.mode = Mode.read ∧
    (reopenSession ⟨none, [⟨1, [.live [97] .int32 1 [5, 0, 0, 0]]⟩,
        ⟨2, [.tombstone [97]]⟩]⟩ ⟨.read, 1, []⟩ 2).2.timestamp = 2 ∧
    getMeta (reopenSession ⟨none, [⟨1, [.live [97] .int32 1 [5, 0, 0, 0]]⟩,
          ⟨2, [.tombstone [97]]⟩]⟩ ⟨.read, 1, []⟩ 2).1
        (reopenSession ⟨none, [⟨1, [.live [97] .int32 1 [5, 0, 0, 0]]⟩,
          ⟨2, [.tombstone [97]]⟩]⟩ ⟨.read, 1, []⟩ 2).2 [97]
      = .ok (ilookup (indexAt ⟨none, [⟨1, [.live [97] .int32 1 [5, 0, 0, 0]]⟩,
          ⟨2, [.tombstone [97]]⟩]⟩ 2) [97]) ∧
    metadataNum (reopenSession ⟨none, [⟨1, [.live [97] .int32 1 [5, 0, 0, 0]]⟩,
          ⟨2, [.tombstone [97]]⟩]⟩ ⟨.read, 1, []⟩ 2).1
        (reopenSession ⟨none, [⟨1, [.live [97] .int32 1 [5, 0, 0, 0]]⟩,
          ⟨2, [.tombstone [97]]⟩]⟩ ⟨.read, 1, []⟩ 2).2
      = .ok (indexAt ⟨none, [⟨1, [.live [97] .int32 1 [5, 0, 0, 0]]⟩,
          ⟨2, [.tombstone [97]]⟩]⟩ 2).length ∧
    ∀ f ∈ (ArrayState.mk none [⟨1, [.live [97] .int32 1 [5, 0, 0, 0]]⟩,
        ⟨2, [.tombstone [97]]⟩]).fragments,
      (Session.mk .read 1 []).timestamp < f.timestamp → f.timestamp ≤ 2 →
      f ∉ fragmentsUpTo ⟨none, [⟨1, [.live [97] .int32 1 [5, 0, 0, 0]]⟩,
          ⟨2, [.tombstone [97]]⟩]⟩ (Session.mk .read 1 []).timestamp ∧
      f ∈ fragmentsUpTo ⟨none, [⟨1, [.live [97] .int32 1 [5, 0, 0, 0]]⟩,
          ⟨2, [.tombstone [97]]⟩]⟩ 2 :=
  reopen_makes_new_fragments_visible
    ⟨none, [⟨1, [.live [97] .int32 1 [5, 0, 0, 0]]⟩, ⟨2, [.tombstone [97]]⟩]⟩
    ⟨.read, 1, []⟩ 2 [97] rfl

/-- The most recent buffered operation of a session that touched key `k`. -/
def lastOpOn (k : List Nat) (ops : List MetaOp) : Option MetaOp :=
  ops.reverse.find? (fun op => op.key = k)

theorem runOps_write (ops : List MetaOp) (ts : Nat) (buf : List Entry)
    (hv : ∀ op ∈ ops, ValidOp op) :
    runOps ⟨.write, ts, buf⟩ ops
      = .ok ⟨.write, ts, buf ++ ops.map MetaOp.entry⟩ := by
  induction ops generalizing buf with
  | nil => simp [runOps]
  | cons op rest ih =>
    cases op with
    | putOp kk t c v =>
      obtain ⟨ht, hc⟩ := hv _ (List.mem_cons_self _ _)
      have hput : putMeta ⟨.write, ts, buf⟩ kk t c (some v)
          = .ok ⟨.write, ts, buf ++ [.live kk t c v]⟩ := by
        rw [putMeta, if_neg (by simp), if_neg (by simp [ht, hc])]
        rfl
      rw [runOps, hput]
      show runOps ⟨.write, ts, buf ++ [.live kk t c v]⟩ rest = _
      rw [ih _ (fun o ho => hv o (List.mem_cons_of_mem _ ho))]
      simp [MetaOp.entry, List.append_assoc]
    | delOp kk =>
      have hdel : deleteMeta ⟨.write, ts, buf⟩ kk
          = .ok ⟨.write, ts, buf ++ [.tombstone kk]⟩ := by
        rw [deleteMeta, if_neg (by simp)]
      rw [runOps, hdel]
      show runOps ⟨.write, ts, buf ++ [.tombstone kk]⟩ rest = _
      rw [ih _ (fun o ho => hv o (List.mem_cons_of_mem _ ho))]
      simp [MetaOp.entry, List.append_assoc]

theorem lastTouch_map_entry (ops : List MetaOp) (k : List Nat) :
    lastTouch k (ops.map MetaOp.entry) = (lastOpOn k ops).map MetaOp.entry := by
  rw [lastTouch, lastOpOn, ← List.map_reverse]
  generalize ops.reverse = l
  induction l with
  | nil => rfl
  | cons op rest ih =>
    have hkey : (MetaOp.entry op).key = op.key := by cases op <;> rfl
    by_cases h : op.key = k
    · simp [List.find?_cons, hkey, h]
    · simp [List.find?_cons, hkey, h, ih]

/-- C3: starting from an empty array, run one write session of valid puts and
deletes, close it, and open a read session: `get(k)` returns the value of the
last put of `k` when the last buffered operation on `k` was a put, and
returns the absent outcome — `.ok none`, never an error — when `k` was last
deleted or never written. -/
theorem get_after_close_read (ops : List MetaOp) (k : List Nat)
    (noww nowr : Nat) (hv : ∀ op ∈ ops, ValidOp op) (hr : 1 ≤ nowr) :
    ∃ s1, runOps ⟨.write, noww, []⟩ ops = .ok s1 ∧
    ∃ sr, openArray (closeSession ⟨none, []⟩ s1) .read none none nowr = .ok sr ∧
      getMeta (closeSession ⟨none, []⟩ s1) sr k =
        .ok (match lastOpOn k ops with
             | some (.putOp _ t c v) => some ⟨t, c, v⟩
             | some (.delOp _) => none
             | none => none) := by
  refine ⟨⟨.write, noww, [] ++ ops.map MetaOp.entry⟩, runOps_write ops noww [] hv, ?_⟩
  rw [List.nil_append]
  by_cases hops : ops = []
  · subst hops
    refine ⟨⟨.read, nowr, []⟩, rfl, ?_⟩
    rfl
  · have hne : ops.map MetaOp.entry ≠ [] := by
      simpa using hops
    have hclose : closeSession ⟨none, []⟩ ⟨.write, noww, ops.map MetaOp.entry⟩
        = ⟨none, [⟨1, ops.map MetaOp.entry⟩]⟩ := by
      rw [closeSession, if_pos ⟨rfl, hne⟩]
      rfl
    rw [hclose]
    refine ⟨⟨.read, nowr, []⟩, rfl, ?_⟩
    rw [getMeta, if_neg (by simp)]
    have hfu : fragmentsUpTo ⟨none, [⟨1, ops.map MetaOp.entry⟩]⟩ nowr
        = [⟨1, ops.map MetaOp.entry⟩] := by
      apply fragmentsUpTo_all
      intro f hf
      rw [List.mem_singleton.mp hf]
      exact hr
    have hidx : indexAt ⟨none, [⟨1, ops.map MetaOp.entry⟩]⟩ nowr
        = replay [] (ops.map MetaOp.entry) := by
      rw [indexAt, hfu]
      show replay [] (ops.map MetaOp.entry ++ []) = _
      rw [List.append_nil]
    rw [hidx, ilookup_replay, lastTouch_map_entry]
    cases hlo : lastOpOn k ops with
    | none => rfl
    | some op => cases op <;> rfl

/-- Instantiation of `get_after_close_read` on the key that was put and then
deleted (the last operation wins): the read session observes absence. -/
theorem get_after_close_read_witness :
    (∀ op ∈ [MetaOp.putOp [97] .int32 1 [5, 0, 0, 0], MetaOp.delOp [97],
        MetaOp.putOp [98] .char 1 [120]], ValidOp op) ∧
    ∃ s1, runOps ⟨.write, 0, []⟩
        [MetaOp.putOp [97] .int32 1 [5, 0, 0, 0], MetaOp.delOp [97],
         MetaOp.putOp [98] .char 1 [120]] = .ok s1 ∧
    ∃ sr, openArray (closeSession ⟨none, []⟩ s1) .read none none 1 = .ok sr ∧
      getMeta (closeSession ⟨none, []⟩ s1) sr [97] =
        .ok (match lastOpOn [97]
            [MetaOp.putOp [97] .int32 1 [5, 0, 0, 0], MetaOp.delOp [97],
             MetaOp.putOp [98] .char 1 [120]] with
             | some (.putOp _ t c v) => some ⟨t, c, v⟩
             | some (.delOp _) => none
             | none => none) :=
  ⟨by decide,
   get_after_close_read
     [MetaOp.putOp [97] .int32 1 [5, 0, 0, 0], MetaOp.delOp [97],
      MetaOp.putOp [98] .char 1 [120]] [97] 0 1 (by decide) (by decide)⟩

end TileDBMeta
